import Mathlib

/-!
Verification of the kuberpak bundle-unpack reconciliation core
(`cmd/unpack/internal/unpacker/unpack.go`).

The development shallowly embeds the reconciliation core:

* Go maps (`map[string]string`, `map[string][]byte`, and the
  `map[types.NamespacedName]corev1.ConfigMap` index built by
  `ensureDesiredConfigMaps`) are modelled as association lists with the
  Go-map invariant (no duplicate keys) stated as a hypothesis where needed.
* Bytes are `Nat` (0–255), byte slices are `List Nat`.
* The canonical YAML encoding produced by the YAML library
  (`yaml.Marshal` of an unstructured object) and the multi-document
  decoder are external library code, not part of this repository; they are
  modelled from the spec (§4.1, §4.2).  The gzip compressor is likewise
  external and is kept as an opaque function parameter `gz`.
* SHA-256 (`crypto/sha256`) is implemented in full (FIPS 180-4) so that the
  content-addressed names can be computed inside the logic.
* The remote store client is modelled in two complementary ways: a pure
  store semantics `applyOp`/`execOps` (create fails on an existing key,
  delete of an absent key succeeds — the Kubernetes behaviour stated in
  spec §6), and an error-injection runner `runOps` mirroring the error
  plumbing of `ensureDesiredConfigMaps` (`client.IgnoreNotFound` on
  deletes, abort on any create error).
-/

set_option maxRecDepth 100000

namespace Kuberpak

/-! ## Association-list model of Go maps -/

/-- Lookup in an association list (model of Go map indexing `m[k]`). -/
def lookupA {κ α : Type} [DecidableEq κ] (k : κ) : List (κ × α) → Option α
  | [] => none
  | (k', v) :: tl => if k' = k then some v else lookupA k tl

/-- Insert/overwrite in an association list (model of Go map assignment `m[k] = v`). -/
def insertA {κ α : Type} [DecidableEq κ] (k : κ) (v : α) : List (κ × α) → List (κ × α)
  | [] => [(k, v)]
  | (k', v') :: tl => if k' = k then (k, v) :: tl else (k', v') :: insertA k v tl

/-- Remove a key from an association list (model of Go `delete(m, k)`). -/
def removeA {κ α : Type} [DecidableEq κ] (k : κ) (m : List (κ × α)) : List (κ × α) :=
  m.filter (fun p => decide (p.1 ≠ k))

/-! ## Map deep-equality helpers (unpack.go lines 271–295)

`stringMapsEqual` and `bytesMapsEqual` are the same algorithm at two value
types (`==` on `string`, `bytes.Equal` on `[]byte`); `assocEqual` is that
common algorithm: equal length, and every binding of `a` is found in `b`
with an equal value. -/

def assocEqual {α : Type} [BEq α] (a b : List (String × α)) : Bool :=
  a.length == b.length &&
    a.all (fun p =>
      match lookupA p.1 b with
      | some vb => p.2 == vb
      | none => false)

/-- unpack.go:271 `func stringMapsEqual(a, b map[string]string) bool` -/
def stringMapsEqual (a b : List (String × String)) : Bool := assocEqual a b

/-- unpack.go:284 `func bytesMapsEqual(a, b map[string][]byte) bool` -/
def bytesMapsEqual (a b : List (String × List Nat)) : Bool := assocEqual a b

/-! ## Manifest objects and their canonical encoding

A decoded manifest object (`unstructured.Unstructured`) is a YAML-like
structured value: scalars, sequences and string-keyed mappings. -/

inductive YVal where
  | str (s : String)
  | arr (elems : List YVal)
  | map (entries : List (String × YVal))

/-- Byte-wise (i.e. code-point-wise) comparison of strings, used to order
map keys in the canonical encoding. -/
def charListLe : List Char → List Char → Bool
  | [], _ => true
  | _ :: _, [] => false
  | a :: as, b :: bs =>
    if a.toNat < b.toNat then true
    else if b.toNat < a.toNat then false
    else charListLe as bs

def strLe (a b : String) : Bool := charListLe a.data b.data

/-- Ordering of rendered map entries by key. -/
def pairLe (a b : String × String) : Prop := strLe a.1 b.1 = true

instance : DecidableRel pairLe := fun a b => instDecidableEqBool (strLe a.1 b.1) true

def joinPairs : List (String × String) → String
  | [] => ""
  | [(k, r)] => k ++ ":" ++ r
  | (k, r) :: tl => k ++ ":" ++ r ++ "," ++ joinPairs tl

def joinStrs : List String → String
  | [] => ""
  | [r] => r
  | r :: tl => r ++ "," ++ joinStrs tl

mutual
/-- Modelled from the spec: §4.2 requires `yaml.Marshal` (external library
code, not part of this repository) to be a deterministic canonical encoder
that does not depend on map/field iteration order; the YAML library
achieves this by emitting map entries sorted by key.  `render` is such an
encoder: scalars verbatim, sequences in order, mappings with entries
sorted by byte-wise key order. -/
def render : YVal → String
  | .str s => s
  | .arr es => "[" ++ joinStrs (renderList es) ++ "]"
  | .map es => "\x7b" ++ joinPairs (List.insertionSort pairLe (renderPairs es)) ++ "\x7d"
def renderList : List YVal → List String
  | [] => []
  | v :: tl => render v :: renderList tl
def renderPairs : List (String × YVal) → List (String × String)
  | [] => []
  | (k, v) :: tl => (k, render v) :: renderPairs tl
end

/-- UTF-8 bytes of a rendered string (all canonical output here is ASCII,
where code points and UTF-8 bytes coincide). -/
def strBytes (s : String) : List Nat := s.data.map Char.toNat

/-- Canonical bytes of a manifest object (`objData, err := yaml.Marshal(obj)`,
unpack.go:195; the marshal step is total on in-memory structured values). -/
def canonBytes (o : YVal) : List Nat := strBytes (render o)

/-- Well-formedness of a structured value: every mapping has pairwise
distinct keys (the Go-map invariant of `map[string]interface{}`). -/
def keysDistinct : List String → Bool
  | [] => true
  | k :: tl => !(tl.contains k) && keysDistinct tl

mutual
def YVal.wf : YVal → Bool
  | .str _ => true
  | .arr es => wfList es
  | .map es => keysDistinct (es.map Prod.fst) && wfPairs es
def wfList : List YVal → Bool
  | [] => true
  | v :: tl => v.wf && wfList tl
def wfPairs : List (String × YVal) → Bool
  | [] => true
  | (_, v) :: tl => v.wf && wfPairs tl
end

/-- Two structured values denote the same logical object when they differ
only in the iteration (storage) order of mapping entries, recursively. -/
inductive YEquiv : YVal → YVal → Prop where
  | str (s : String) : YEquiv (.str s) (.str s)
  | arr {es fs : List YVal} :
      List.Forall₂ YEquiv es fs → YEquiv (.arr es) (.arr fs)
  | map {es gs fs : List (String × YVal)} :
      es.map Prod.fst = gs.map Prod.fst →
      List.Forall₂ YEquiv (es.map Prod.snd) (gs.map Prod.snd) →
      gs.Perm fs → YEquiv (.map es) (.map fs)

/-! ## SHA-256 (crypto/sha256, FIPS 180-4), over `Nat` words mod 2^32 -/

def w32 : Nat := 4294967296

def rotr32 (n x : Nat) : Nat := ((x >>> n) ||| (x <<< (32 - n))) % w32

def sha256K : List Nat :=
  [1116352408, 1899447441, 3049323471, 3921009573,
   961987163, 1508970993, 2453635748, 2870763221,
   3624381080, 310598401, 607225278, 1426881987,
   1925078388, 2162078206, 2614888103, 3248222580,
   3835390401, 4022224774, 264347078, 604807628,
   770255983, 1249150122, 1555081692, 1996064986,
   2554220882, 2821834349, 2952996808, 3210313671,
   3336571891, 3584528711, 113926993, 338241895,
   666307205, 773529912, 1294757372, 1396182291,
   1695183700, 1986661051, 2177026350, 2456956037,
   2730485921, 2820302411, 3259730800, 3345764771,
   3516065817, 3600352804, 4094571909, 275423344,
   430227734, 506948616, 659060556, 883997877,
   958139571, 1322822218, 1537002063, 1747873779,
   1955562222, 2024104815, 2227730452, 2361852424,
   2428436474, 2756734187, 3204031479, 3329325298]

/-- Append the 0x80 marker, zero padding, and the 64-bit big-endian bit
length, reaching a multiple of 64 bytes. -/
def sha256Pad (msg : List Nat) : List Nat :=
  let len := msg.length
  let lenBits := len * 8
  let padZeros := (55 + 64 - len % 64) % 64
  let lenBytes := (List.range 8).map (fun i => (lenBits >>> (8 * (7 - i))) % 256)
  msg ++ [0x80] ++ List.replicate padZeros 0 ++ lenBytes

/-- Big-endian 4-byte words of a block. -/
def toWords : List Nat → List Nat
  | b0 :: b1 :: b2 :: b3 :: rest => (((b0 * 256 + b1) * 256 + b2) * 256 + b3) :: toWords rest
  | _ => []

def smallSigma0 (x : Nat) : Nat := (rotr32 7 x) ^^^ (rotr32 18 x) ^^^ (x >>> 3)
def smallSigma1 (x : Nat) : Nat := (rotr32 17 x) ^^^ (rotr32 19 x) ^^^ (x >>> 10)
def bigSigma0 (x : Nat) : Nat := (rotr32 2 x) ^^^ (rotr32 13 x) ^^^ (rotr32 22 x)
def bigSigma1 (x : Nat) : Nat := (rotr32 6 x) ^^^ (rotr32 11 x) ^^^ (rotr32 25 x)

/-- Extend the 16 block words by `n` schedule words. -/
def extendSchedule (w : List Nat) : Nat → List Nat
  | 0 => w
  | n + 1 =>
    let w' := extendSchedule w n
    let t := w'.length
    let wt := (smallSigma1 (w'.getD (t - 2) 0) + w'.getD (t - 7) 0 +
               smallSigma0 (w'.getD (t - 15) 0) + w'.getD (t - 16) 0) % w32
    w' ++ [wt]

structure Sha256State where
  a : Nat
  b : Nat
  c : Nat
  d : Nat
  e : Nat
  f : Nat
  g : Nat
  h : Nat

def sha256Round (st : Sha256State) (kw : Nat × Nat) : Sha256State :=
  let ch := (st.e &&& st.f) ^^^ ((w32 - 1 - st.e) &&& st.g)
  let maj := (st.a &&& st.b) ^^^ (st.a &&& st.c) ^^^ (st.b &&& st.c)
  let t1 := (st.h + bigSigma1 st.e + ch + kw.1 + kw.2) % w32
  let t2 := (bigSigma0 st.a + maj) % w32
  { a := (t1 + t2) % w32, b := st.a, c := st.b, d := st.c,
    e := (st.d + t1) % w32, f := st.e, g := st.f, h := st.g }

def sha256Block (h : List Nat) (block : List Nat) : List Nat :=
  let w := extendSchedule (toWords block) 48
  let st0 : Sha256State :=
    { a := h.getD 0 0, b := h.getD 1 0, c := h.getD 2 0, d := h.getD 3 0,
      e := h.getD 4 0, f := h.getD 5 0, g := h.getD 6 0, h := h.getD 7 0 }
  let st := (sha256K.zip w).foldl sha256Round st0
  [(h.getD 0 0 + st.a) % w32, (h.getD 1 0 + st.b) % w32, (h.getD 2 0 + st.c) % w32,
   (h.getD 3 0 + st.d) % w32, (h.getD 4 0 + st.e) % w32, (h.getD 5 0 + st.f) % w32,
   (h.getD 6 0 + st.g) % w32, (h.getD 7 0 + st.h) % w32]

/-- Compress `n` 64-byte blocks of `l` into the running hash `h`. -/
def sha256Blocks (h : List Nat) (l : List Nat) : Nat → List Nat
  | 0 => h
  | n + 1 => sha256Blocks (sha256Block h (l.take 64)) (l.drop 64) n

def sha256Words (msg : List Nat) : List Nat :=
  let p := sha256Pad msg
  sha256Blocks
    [1779033703, 3144134277, 1013904242, 2773480762,
     1359893119, 2600822924, 528734635, 1541459225]
    p (p.length / 64)

def hexDigit (n : Nat) : Char :=
  Char.ofNat (if n < 10 then 48 + n else 87 + n)

def wordHex (w : Nat) : List Char :=
  (List.range 8).map (fun i => hexDigit ((w >>> (4 * (7 - i))) % 16))

/-- `fmt.Sprintf("%x", sha256.Sum256(objData))`, unpack.go:199. -/
def sha256Hex (msg : List Nat) : String :=
  ⟨(sha256Words msg).flatMap wordHex⟩

/-- `hash[0:8]`: the first 8 hex characters of the content hash. -/
def take8 (s : String) : String := String.mk (s.data.take 8)

/-! ## ConfigMaps (chunks) and the desired-state builder (unpack.go 188–235) -/

/-- `types.NamespacedName`: a `(namespace, name)` key. -/
abbrev NName := String × String

/-- The fields of a `corev1.ConfigMap` that the reconciliation core reads
or writes.  `annots` models `Annotations`.  Owner references set by
`controllerutil.SetControllerReference` (unpack.go:229) are lifecycle
metadata invisible to the diff and are not modelled. -/
structure ConfigMap where
  name : String
  ns : String
  labels : List (String × String) := []
  annots : List (String × String) := []
  data : List (String × String) := []
  binaryData : List (String × List Nat) := []
  immutable : Bool := false
deriving DecidableEq

def cmKey (cm : ConfigMap) : NName := (cm.ns, cm.name)

/-- Accessors of an unstructured object.  `GetName`/`GetNamespace` read
`metadata.name`/`metadata.namespace` and yield `""` when absent. -/
def YVal.lookupField (v : YVal) (k : String) : Option YVal :=
  match v with
  | .map es => lookupA k es
  | _ => none

def YVal.strField (v : YVal) (k : String) : String :=
  match v.lookupField k with
  | some (.str s) => s
  | _ => ""

def objName (o : YVal) : String :=
  match o.lookupField "metadata" with
  | some m => m.strField "name"
  | none => ""

def objNamespace (o : YVal) : String :=
  match o.lookupField "metadata" with
  | some m => m.strField "namespace"
  | none => ""

/-- `GroupVersionKind().ToAPIVersionAndKind()` returns the pair
`(apiVersion, kind)` (parsing the `apiVersion` string into a group/version
and formatting it back is the identity on well-formed objects).  Note that
unpack.go:209 destructures this pair as `kind, apiVersion := ...`. -/
def toAPIVersionAndKind (o : YVal) : String × String :=
  (o.strField "apiVersion", o.strField "kind")

structure Unpacker where
  ns : String
  bundleName : String

/-- unpack.go:188 `getConfigMapLabels`. -/
def Unpacker.getConfigMapLabels (u : Unpacker) : List (String × String) :=
  [("kuberpak.io/bundle-name", u.bundleName)]

/-- The ConfigMap built for one object in the loop body of
`getDesiredConfigMaps` (unpack.go 194–232).  `gz` is the external gzip
compressor (`compress/gzip`), kept opaque; writing to an in-memory buffer
never fails, so the gzip error branches are unreachable. -/
def Unpacker.desiredConfigMapFor (u : Unpacker) (gz : List Nat → List Nat)
    (resolvedImage : String) (obj : YVal) : ConfigMap :=
  let objData := canonBytes obj
  let hash := sha256Hex objData
  let objCompressed := gz objData
  let kindApi := toAPIVersionAndKind obj
  { name := "bundle-object-" ++ u.bundleName ++ "-" ++ take8 hash
    ns := u.ns
    labels := u.getConfigMapLabels
    annots := []
    data := [("bundle-image", resolvedImage),
             ("object-sha256", hash),
             ("object-kind", kindApi.1),
             ("object-apiversion", kindApi.2),
             ("object-name", objName obj),
             ("object-namespace", objNamespace obj)]
    binaryData := [("object", objCompressed)]
    immutable := true }

/-- unpack.go:192 `getDesiredConfigMaps`: one ConfigMap per object, in
input order.  The only error paths in the source are library failures
(marshal, gzip-to-buffer, owner-reference attachment), all total here, so
every run returns `ok`; in particular there is no duplicate-key check. -/
def Unpacker.getDesiredConfigMaps (u : Unpacker) (gz : List Nat → List Nat)
    (resolvedImage : String) (objects : List YVal) : Except String (List ConfigMap) :=
  Except.ok (objects.map (u.desiredConfigMapFor gz resolvedImage))

/-! ## The manifest loader (unpack.go 158–186) -/

/-- One directory entry of the manifests filesystem.  `docs` is the
document stream the multi-document YAML/JSON decoder (external library
code, modelled from the spec §4.1/§6) yields for the file's bytes: each
document either decodes to a structured value or fails with the decoder's
error message.  The decoder sees only the file's bytes, never the entry
name.  `readErr` models a `ReadFile` failure. -/
structure FsEntry where
  name : String
  isDir : Bool
  readErr : Option String := none
  docs : List (Except String YVal) := []

/-- The per-file decode loop (unpack.go 174–183): documents are decoded in
order until EOF; the first failure is returned as-is (`return nil, err`,
line 180 — no wrapping). -/
def decodeDocs : List (Except String YVal) → Except String (List YVal)
  | [] => Except.ok []
  | Except.error m :: _ => Except.error m
  | Except.ok v :: tl => (decodeDocs tl).map (fun vs => v :: vs)

/-- unpack.go:158 `getObjects`: directories are skipped; files are read
and decoded in entry order; any failure aborts with the underlying error
unmodified. -/
def getObjects : List FsEntry → Except String (List YVal)
  | [] => Except.ok []
  | e :: tl =>
    if e.isDir then getObjects tl
    else
      match e.readErr with
      | some m => Except.error m
      | none =>
        match decodeDocs e.docs with
        | Except.error m => Except.error m
        | Except.ok vs => (getObjects tl).map (fun rest => vs ++ rest)

/-- Does `sub` occur contiguously inside `l`?  (Used to state whether an
error message contains a file name.) -/
def listStartsWith : List Char → List Char → Bool
  | [], _ => true
  | _ :: _, [] => false
  | a :: as, b :: bs => a == b && listStartsWith as bs

def listHasSeg (sub : List Char) : List Char → Bool
  | [] => listStartsWith sub []
  | c :: tl => listStartsWith sub (c :: tl) || listHasSeg sub tl

/-! ## The reconciler (unpack.go 237–269)

`ensureDesiredConfigMaps` interleaves the diff computation with remote
store calls.  The diff and the order of the issued operations are pure and
captured by `ensureDesiredConfigMapsOps`; the store side is replayed by
`execOps` (store semantics; stops at the first failing call exactly as the
early `return` in the source does) and `runOps` (error plumbing). -/

inductive Op where
  | create (cm : ConfigMap)
  | delete (cm : ConfigMap)
deriving DecidableEq

/-- The loop body for one desired ConfigMap (unpack.go 244–262):
if an actual entry exists at the key and is deep-equal, account for it and
do nothing; if it exists but differs, issue delete-then-create (note: the
key is not removed from the working index); otherwise issue a create. -/
def ensureStep (st : List Op × List (NName × ConfigMap)) (cm : ConfigMap) :
    List Op × List (NName × ConfigMap) :=
  match lookupA (cmKey cm) st.2 with
  | some ecm =>
    if stringMapsEqual ecm.labels cm.labels &&
       stringMapsEqual ecm.annots cm.annots &&
       stringMapsEqual ecm.data cm.data &&
       bytesMapsEqual ecm.binaryData cm.binaryData then
      (st.1, removeA (cmKey cm) st.2)
    else
      (st.1 ++ [Op.delete ecm, Op.create cm], st.2)
  | none => (st.1 ++ [Op.create cm], st.2)

/-- The deep-equality check of unpack.go 248–251, as a named predicate. -/
def cmContentEqual (ecm cm : ConfigMap) : Bool :=
  stringMapsEqual ecm.labels cm.labels &&
  stringMapsEqual ecm.annots cm.annots &&
  stringMapsEqual ecm.data cm.data &&
  bytesMapsEqual ecm.binaryData cm.binaryData

/-- unpack.go 238–242: index the actual ConfigMaps by `(namespace, name)`. -/
def buildActualCms (actual : List ConfigMap) : List (NName × ConfigMap) :=
  actual.foldl (fun m cm => insertA (cmKey cm) cm m) []

/-- The operation sequence issued by `ensureDesiredConfigMaps` on
`(actual, desired)`: the per-desired loop followed by the
garbage-collection sweep over what is left of the working index
(unpack.go 263–267).  Go map iteration order is unspecified; the sweep is
modelled in index order, which the claims are insensitive to (the sweep
consists of deletes of pairwise distinct keys). -/
def ensureDesiredConfigMapsOps (actual desired : List ConfigMap) : List Op :=
  let st := desired.foldl ensureStep ([], buildActualCms actual)
  st.1 ++ st.2.map (fun e => Op.delete e.2)

/-- Remote-store semantics (spec §6): `create` on a present key is an
error; `delete` removes whatever is stored under the key and succeeds even
when the key is absent (not-found is ignored, unpack.go 255/264). -/
def applyOp (s : List ConfigMap) : Op → Option (List ConfigMap)
  | Op.create cm =>
    if s.any (fun x => decide (cmKey x = cmKey cm)) then none
    else some (s ++ [cm])
  | Op.delete cm => some (s.filter (fun x => decide (cmKey x ≠ cmKey cm)))

/-- Replay an operation sequence against a store, stopping at the first
failure (as the early `return` in the source does). -/
def execOps (s : List ConfigMap) (ops : List Op) : Option (List ConfigMap) :=
  ops.foldlM applyOp s

/-- Outcome of one remote call: success, a not-found condition, or any
other remote-store error carrying a message. -/
inductive OpOutcome where
  | ok
  | notFound
  | fail (msg : String)
deriving DecidableEq

/-- The error plumbing of `ensureDesiredConfigMaps` under injected remote
outcomes (`outcome i` answers the `i`-th issued call): for a delete,
`client.IgnoreNotFound(err) != nil` aborts with
`fmt.Errorf("delete configmap: %v", err)` — i.e. both `ok` and `notFound`
continue; for a create, any error aborts
(`fmt.Errorf("create configmap: %v", err)`). -/
def runOps (outcome : Nat → OpOutcome) : List Op → Except String Unit
  | [] => Except.ok ()
  | Op.delete _ :: rest =>
    match outcome 0 with
    | OpOutcome.fail m => Except.error ("delete configmap: " ++ m)
    | _ => runOps (fun n => outcome (n + 1)) rest
  | Op.create _ :: rest =>
    match outcome 0 with
    | OpOutcome.ok => runOps (fun n => outcome (n + 1)) rest
    | OpOutcome.notFound => Except.error ("create configmap: not found")
    | OpOutcome.fail m => Except.error ("create configmap: " ++ m)

/-- Number of delete operations issued for a given key. -/
def deleteCountAt (k : NName) (ops : List Op) : Nat :=
  (ops.filter (fun op =>
    match op with
    | Op.delete cm => decide (cmKey cm = k)
    | Op.create _ => false)).length

/-- The error, if any, of an `Except` result. -/
def errOf {α : Type} : Except String α → Option String
  | Except.error m => some m
  | Except.ok _ => none

/-! ## Concrete values used in counterexamples and witnesses -/

def u0 : Unpacker := { ns := "ns", bundleName := "b" }

/-- A concrete compressor instance for evaluating the builder (the
development is parametric in the compressor). -/
def gzId : List Nat → List Nat := fun l => l

/-- A stored chunk and a desired chunk under the same `(namespace, name)`
key with differing content (a content change of one manifest object). -/
def cmOldC : ConfigMap :=
  { name := "bundle-object-b-x", ns := "ns",
    labels := [("kuberpak.io/bundle-name", "b")],
    data := [("object-sha256", "1")],
    binaryData := [("object", [1])], immutable := true }

def cmNewC : ConfigMap :=
  { name := "bundle-object-b-x", ns := "ns",
    labels := [("kuberpak.io/bundle-name", "b")],
    data := [("object-sha256", "2")],
    binaryData := [("object", [2])], immutable := true }

/-- Two distinct manifest objects whose canonical encodings
(`\x7ba:109372\x7d` and `\x7ba:147153\x7d`) have SHA-256 hashes agreeing
on the first 8 hex characters (`0523e000`). -/
def o1 : YVal := .map [("a", .str "109372")]

def o2 : YVal := .map [("a", .str "147153")]

/-- A well-formed manifest object for witness evaluations. -/
def oW : YVal :=
  .map [("apiVersion", .str "v1"), ("kind", .str "Service"),
        ("metadata", .map [("name", .str "svc"), ("namespace", .str "default")])]

/-- Manifest-source entries for loader evaluations. -/
def eGood : FsEntry :=
  { name := "good.yaml", isDir := false,
    docs := [Except.ok (.str "v1"), Except.ok (.str "v2")] }

def eDir : FsEntry := { name := "sub", isDir := true }

def eBad : FsEntry :=
  { name := "bad.yaml", isDir := false,
    docs := [Except.ok (.str "v3"), Except.error "boom"] }

/-- A file whose only document is malformed; the decoder's message does
not mention the file name (the decoder only ever sees the file's bytes). -/
def badEntry : FsEntry :=
  { name := "bad.yaml", isDir := false,
    docs := [Except.error "could not decode"] }

/-- Two representations of one logical object differing only in map entry
order. -/
def c9v : YVal := .map [("b", .str "1"), ("a", .str "2")]

def c9w : YVal := .map [("a", .str "2"), ("b", .str "1")]

/-- Remote outcomes: every call reports not-found. -/
def outcomeNF : Nat → OpOutcome := fun _ => OpOutcome.notFound

/-- Remote outcomes: the first call fails hard, the rest succeed. -/
def outcomeF : Nat → OpOutcome := fun i => if i = 0 then OpOutcome.fail "boom" else OpOutcome.ok

/-! ## Helper lemmas: association lists -/

theorem lookupA_eq_some_mem {κ α : Type} [DecidableEq κ] {k : κ} {v : α} :
    ∀ {l : List (κ × α)}, lookupA k l = some v → (k, v) ∈ l := by
  intro l
  induction l with
  | nil => intro h; simp [lookupA] at h
  | cons p tl ih =>
    intro h
    obtain ⟨k', v'⟩ := p
    by_cases hk : k' = k
    · subst hk
      simp [lookupA] at h
      simp [h]
    · simp [lookupA, hk] at h
      exact List.mem_cons_of_mem _ (ih h)

theorem lookupA_mem_nodup {κ α : Type} [DecidableEq κ] {k : κ} {v : α} :
    ∀ {l : List (κ × α)}, (l.map Prod.fst).Nodup → (k, v) ∈ l → lookupA k l = some v := by
  intro l
  induction l with
  | nil => intro _ h; simp at h
  | cons p tl ih =>
    intro hn h
    obtain ⟨k', v'⟩ := p
    simp only [List.map_cons, List.nodup_cons] at hn
    rcases List.mem_cons.mp h with h1 | h1
    · obtain ⟨hk, hv⟩ := Prod.mk.injEq .. ▸ h1.symm
      simp [lookupA, hk, hv]
    · have hkne : k' ≠ k := by
        intro he
        exact hn.1 (he ▸ (List.mem_map.mpr ⟨(k, v), h1, rfl⟩))
      simp [lookupA, hkne]
      exact ih hn.2 h1

theorem lookupA_eq_none_iff {κ α : Type} [DecidableEq κ] {k : κ} :
    ∀ {l : List (κ × α)}, lookupA k l = none ↔ k ∉ l.map Prod.fst := by
  intro l
  induction l with
  | nil => simp [lookupA]
  | cons p tl ih =>
    obtain ⟨k', v'⟩ := p
    by_cases hk : k' = k
    · subst hk; simp [lookupA]
    · simp [lookupA, hk, ih, Ne.symm hk]

theorem lookupA_isSome_iff {κ α : Type} [DecidableEq κ] {k : κ} {l : List (κ × α)} :
    (lookupA k l).isSome ↔ k ∈ l.map Prod.fst := by
  rcases h : lookupA k l with _ | v
  · simpa [h] using lookupA_eq_none_iff.mp h
  · simp only [Option.isSome_some, true_iff]
    exact List.mem_map.mpr ⟨(k, v), lookupA_eq_some_mem h, rfl⟩

/-! ## Helper lemmas: the shared map-equality algorithm -/

theorem assocEqual_iff {α : Type} [BEq α] [LawfulBEq α] {a b : List (String × α)}
    (ha : (a.map Prod.fst).Nodup) (hb : (b.map Prod.fst).Nodup) :
    assocEqual a b = true ↔ ∀ k, lookupA k a = lookupA k b := by
  constructor
  · intro h
    have hlen : a.length = b.length := by
      have := (Bool.and_eq_true ..).mp h |>.1
      exact beq_iff_eq.mp this
    have hall := (Bool.and_eq_true ..).mp h |>.2
    rw [List.all_eq_true] at hall
    have hsub : ∀ p ∈ a, lookupA p.1 b = some p.2 := by
      intro p hp
      have := hall p hp
      rcases hl : lookupA p.1 b with _ | vb
      · rw [hl] at this; simp at this
      · rw [hl] at this
        simp only [beq_iff_eq] at this
        rw [this]
    have hkeys : ∀ k ∈ a.map Prod.fst, k ∈ b.map Prod.fst := by
      intro k hk
      obtain ⟨p, hp, hpk⟩ := List.mem_map.mp hk
      subst hpk
      exact lookupA_isSome_iff.mp (by rw [hsub p hp]; rfl)
    have hperm : (a.map Prod.fst).Perm (b.map Prod.fst) := by
      have hsp := List.subperm_of_subset ha hkeys
      have hlen' : (b.map Prod.fst).length ≤ (a.map Prod.fst).length := by
        simp [hlen]
      exact hsp.perm_of_length_le hlen'
    intro k
    rcases hl : lookupA k a with _ | v
    · have hk : k ∉ a.map Prod.fst := lookupA_eq_none_iff.mp hl
      have hk' : k ∉ b.map Prod.fst := fun hmem => hk (hperm.mem_iff.mpr hmem)
      rw [lookupA_eq_none_iff.mpr hk']
    · exact (hsub (k, v) (lookupA_eq_some_mem hl)).symm
  · intro h
    have hkeys : ∀ k, k ∈ a.map Prod.fst ↔ k ∈ b.map Prod.fst := by
      intro k
      rw [← @lookupA_isSome_iff String α _ k a, ← @lookupA_isSome_iff String α _ k b, h k]
    have hperm : (a.map Prod.fst).Perm (b.map Prod.fst) :=
      (List.perm_ext_iff_of_nodup ha hb).mpr hkeys
    have hlen : a.length = b.length := by
      have := hperm.length_eq
      simpa using this
    apply (Bool.and_eq_true ..).mpr
    refine ⟨Nat.beq_eq_true_eq .. ▸ (by exact_mod_cast hlen), ?_⟩
    rw [List.all_eq_true]
    intro p hp
    have hla : lookupA p.1 a = some p.2 := lookupA_mem_nodup ha (by simpa using hp)
    have hlb : lookupA p.1 b = some p.2 := by rw [← h p.1]; exact hla
    rw [hlb]
    simp

/-! ## Helper lemmas: the canonical encoder sorts map entries by key -/

theorem charToNat_inj {a b : Char} (h : a.toNat = b.toNat) : a = b := by
  have ha := Char.ofNat_toNat a
  have hb := Char.ofNat_toNat b
  rw [← ha, ← hb, h]

theorem charListLe_cons_iff {x y : Char} {xs ys : List Char} :
    charListLe (x :: xs) (y :: ys) = true ↔
      (x.toNat < y.toNat ∨ (x.toNat = y.toNat ∧ charListLe xs ys = true)) := by
  simp only [charListLe]
  by_cases h1 : x.toNat < y.toNat
  · simp [h1]
  · by_cases h2 : y.toNat < x.toNat
    · simp [h1, h2]; omega
    · have h3 : x.toNat = y.toNat := by omega
      simp [h1, h2, h3]

theorem charListLe_total : ∀ a b : List Char, charListLe a b = true ∨ charListLe b a = true := by
  intro a
  induction a with
  | nil => intro b; left; rfl
  | cons x xs ih =>
    intro b
    cases b with
    | nil => right; rfl
    | cons y ys =>
      rw [charListLe_cons_iff, charListLe_cons_iff]
      rcases ih ys with h | h
      · rcases Nat.lt_trichotomy x.toNat y.toNat with h1 | h1 | h1
        · left; left; exact h1
        · left; right; exact ⟨h1, h⟩
        · right; left; exact h1
      · rcases Nat.lt_trichotomy x.toNat y.toNat with h1 | h1 | h1
        · left; left; exact h1
        · right; right; exact ⟨h1.symm, h⟩
        · right; left; exact h1

theorem charListLe_trans :
    ∀ a b c : List Char, charListLe a b = true → charListLe b c = true →
      charListLe a c = true := by
  intro a
  induction a with
  | nil => intro b c _ _; rfl
  | cons x xs ih =>
    intro b c hab hbc
    cases b with
    | nil => simp [charListLe] at hab
    | cons y ys =>
      cases c with
      | nil => simp [charListLe] at hbc
      | cons z zs =>
        rw [charListLe_cons_iff] at hab hbc ⊢
        rcases hab with h1 | ⟨h1, h1'⟩
        · rcases hbc with h2 | ⟨h2, _⟩
          · left; omega
          · left; omega
        · rcases hbc with h2 | ⟨h2, h2'⟩
          · left; omega
          · right; exact ⟨by omega, ih ys zs h1' h2'⟩

theorem charListLe_antisymm :
    ∀ a b : List Char, charListLe a b = true → charListLe b a = true → a = b := by
  intro a
  induction a with
  | nil =>
    intro b _ hba
    cases b with
    | nil => rfl
    | cons y ys => simp [charListLe] at hba
  | cons x xs ih =>
    intro b hab hba
    cases b with
    | nil => simp [charListLe] at hab
    | cons y ys =>
      rw [charListLe_cons_iff] at hab hba
      rcases hab with h1 | ⟨h1, h1'⟩
      · rcases hba with h2 | ⟨h2, _⟩ <;> omega
      · rcases hba with h2 | ⟨h2, h2'⟩
        · omega
        · have hxy : x = y := charToNat_inj h1
          rw [hxy, ih ys h1' h2']

theorem strLe_antisymm {a b : String} (hab : strLe a b = true) (hba : strLe b a = true) :
    a = b := by
  cases a with
  | mk da =>
    cases b with
    | mk db =>
      have : da = db := charListLe_antisymm da db hab hba
      rw [this]

instance : IsTotal (String × String) pairLe :=
  ⟨fun a b => charListLe_total a.1.data b.1.data⟩

instance : IsTrans (String × String) pairLe :=
  ⟨fun a b c hab hbc => charListLe_trans a.1.data b.1.data c.1.data hab hbc⟩

/-- Two permuted entry lists with (on one side) pairwise distinct keys have
the same key-sorted form. -/
theorem insertionSort_perm_congr {l₁ l₂ : List (String × String)}
    (hp : l₁.Perm l₂) (hn : (l₂.map Prod.fst).Nodup) :
    List.insertionSort pairLe l₁ = List.insertionSort pairLe l₂ := by
  apply @List.Perm.eq_of_sorted (String × String) pairLe
  · intro a b ha hb hab hba
    have hkey : a.1 = b.1 := strLe_antisymm hab hba
    have ha2 : a ∈ l₂ := hp.mem_iff.mp ((List.perm_insertionSort pairLe l₁).mem_iff.mp ha)
    have hb2 : b ∈ l₂ := (List.perm_insertionSort pairLe l₂).mem_iff.mp hb
    exact List.inj_on_of_nodup_map hn ha2 hb2 hkey
  · exact List.sorted_insertionSort pairLe l₁
  · exact List.sorted_insertionSort pairLe l₂
  · exact ((List.perm_insertionSort pairLe l₁).trans hp).trans
      (List.perm_insertionSort pairLe l₂).symm

/-! ## Helper lemmas: the encoder respects logical-object equivalence -/

theorem renderList_eq_map : ∀ l : List YVal, renderList l = l.map render := by
  intro l
  induction l with
  | nil => rfl
  | cons v tl ih => simp [renderList, ih]

theorem renderPairs_eq_map :
    ∀ l : List (String × YVal), renderPairs l = l.map (fun p => (p.1, render p.2)) := by
  intro l
  induction l with
  | nil => rfl
  | cons p tl ih =>
    obtain ⟨k, v⟩ := p
    simp [renderPairs, ih]

theorem wfList_mem : ∀ {es : List YVal}, wfList es = true → ∀ {v}, v ∈ es → YVal.wf v = true := by
  intro es
  induction es with
  | nil => intro _ v hv; simp at hv
  | cons e tl ih =>
    intro h v hv
    simp only [wfList, Bool.and_eq_true] at h
    rcases List.mem_cons.mp hv with h1 | h1
    · rw [h1]; exact h.1
    · exact ih h.2 h1

theorem wfPairs_mem :
    ∀ {es : List (String × YVal)}, wfPairs es = true → ∀ {p}, p ∈ es → YVal.wf p.2 = true := by
  intro es
  induction es with
  | nil => intro _ p hp; simp at hp
  | cons e tl ih =>
    intro h p hp
    obtain ⟨k, v⟩ := e
    simp only [wfPairs, Bool.and_eq_true] at h
    rcases List.mem_cons.mp hp with h1 | h1
    · rw [h1]; exact h.1
    · exact ih h.2 h1

theorem keysDistinct_iff : ∀ {l : List String}, keysDistinct l = true ↔ l.Nodup := by
  intro l
  induction l with
  | nil => simp [keysDistinct]
  | cons k tl ih =>
    simp only [keysDistinct, Bool.and_eq_true, Bool.not_eq_true', List.nodup_cons, ← ih]
    constructor
    · intro ⟨h1, h2⟩
      refine ⟨fun hmem => ?_, h2⟩
      have hc : tl.contains k = true := List.elem_iff.mpr hmem
      rw [hc] at h1
      exact Bool.false_ne_true h1.symm
    · intro ⟨h1, h2⟩
      refine ⟨?_, h2⟩
      rcases hc : List.contains tl k with _ | _
      · rfl
      · exact absurd (List.elem_iff.mp hc) h1

/-- Pointwise-equal key and rendered-value projections give equal rendered
pair lists. -/
theorem map_pair_eq :
    ∀ (es gs : List (String × YVal)),
      es.map Prod.fst = gs.map Prod.fst →
      (es.map Prod.snd).map render = (gs.map Prod.snd).map render →
      es.map (fun p => (p.1, render p.2)) = gs.map (fun p => (p.1, render p.2)) := by
  intro es
  induction es with
  | nil =>
    intro gs h1 _
    cases gs with
    | nil => rfl
    | cons g gt => simp at h1
  | cons e et ih =>
    intro gs h1 h2
    cases gs with
    | nil => simp at h1
    | cons g gt =>
      simp only [List.map_cons, List.cons.injEq] at h1 h2 ⊢
      exact ⟨by rw [Prod.ext_iff]; exact ⟨h1.1, h2.1⟩, ih gt h1.2 h2.2⟩

/-- Size bound used to drive the strong induction below. -/
theorem sizeOf_snd_lt_map {p : String × YVal} {es : List (String × YVal)} (hp : p ∈ es) :
    sizeOf p.2 < sizeOf (YVal.map es) := by
  have h1 : sizeOf p < sizeOf es := List.sizeOf_lt_of_mem hp
  obtain ⟨k, v⟩ := p
  simp only [Prod.mk.sizeOf_spec] at h1
  simp only [YVal.map.sizeOf_spec]
  omega

theorem sizeOf_mem_lt_arr {v : YVal} {es : List YVal} (hv : v ∈ es) :
    sizeOf v < sizeOf (YVal.arr es) := by
  have h1 : sizeOf v < sizeOf es := List.sizeOf_lt_of_mem hv
  simp only [YVal.arr.sizeOf_spec]
  omega

/-- Pointwise rendering under `YEquiv`, given the strong-induction
hypothesis for elements of bounded size. -/
theorem mapRender_congr {n : Nat}
    (ih : ∀ v w, sizeOf v ≤ n → YVal.wf v = true → YVal.wf w = true → YEquiv v w →
      render v = render w) :
    ∀ {as bs : List YVal}, List.Forall₂ YEquiv as bs →
      (∀ e ∈ as, sizeOf e ≤ n ∧ YVal.wf e = true) → (∀ f ∈ bs, YVal.wf f = true) →
      as.map render = bs.map render := by
  intro as bs hf
  induction hf with
  | nil => intro _ _; rfl
  | cons hab htl ihtl =>
    rename_i a b as' bs'
    intro h1 h2
    simp only [List.map_cons, List.cons.injEq]
    refine ⟨ih a b (h1 a (by simp)).1 (h1 a (by simp)).2 (h2 b (by simp)) hab, ?_⟩
    exact ihtl (fun e he => h1 e (by simp [he])) (fun f hfm => h2 f (by simp [hfm]))

/-- The canonical encoder yields the same text on any two representations
of the same logical object (strong induction on the size of the value). -/
theorem render_congr_aux :
    ∀ n v w, sizeOf v ≤ n → YVal.wf v = true → YVal.wf w = true → YEquiv v w →
      render v = render w := by
  intro n
  induction n with
  | zero =>
    intro v w hsz _ _ _
    cases v <;> simp_all
  | succ n ih =>
    intro v w hsz hv hw h
    cases h with
    | str s => rfl
    | arr hf =>
      rename_i es fs
      simp only [render]
      rw [renderList_eq_map, renderList_eq_map]
      have hes : ∀ e ∈ es, sizeOf e ≤ n ∧ YVal.wf e = true := by
        intro e he
        refine ⟨?_, wfList_mem (by simpa [YVal.wf] using hv) he⟩
        have := sizeOf_mem_lt_arr he
        omega
      have hfs : ∀ f ∈ fs, YVal.wf f = true := by
        intro f hfm
        exact wfList_mem (by simpa [YVal.wf] using hw) hfm
      rw [mapRender_congr ih hf hes hfs]
    | map hkeys hvals hperm =>
      rename_i es gs fs
      simp only [render]
      rw [renderPairs_eq_map, renderPairs_eq_map]
      have hwg : ∀ p ∈ gs, YVal.wf p.2 = true := by
        intro p hp
        exact wfPairs_mem (by simp only [YVal.wf, Bool.and_eq_true] at hw; exact hw.2)
          (hperm.mem_iff.mp hp)
      have hes : ∀ e ∈ es.map Prod.snd, sizeOf e ≤ n ∧ YVal.wf e = true := by
        intro e he
        obtain ⟨p, hp, hpe⟩ := List.mem_map.mp he
        subst hpe
        refine ⟨?_, wfPairs_mem (by simp only [YVal.wf, Bool.and_eq_true] at hv; exact hv.2) hp⟩
        have := sizeOf_snd_lt_map hp
        omega
      have hgs : ∀ f ∈ gs.map Prod.snd, YVal.wf f = true := by
        intro f hfm
        obtain ⟨p, hp, hpf⟩ := List.mem_map.mp hfm
        subst hpf
        exact hwg p hp
      have hmaps : (es.map Prod.snd).map render = (gs.map Prod.snd).map render :=
        mapRender_congr ih hvals hes hgs
      have hstep1 : es.map (fun p => (p.1, render p.2)) = gs.map (fun p => (p.1, render p.2)) :=
        map_pair_eq es gs hkeys hmaps
      have hstep2 : (gs.map (fun p => (p.1, render p.2))).Perm
          (fs.map (fun p => (p.1, render p.2))) := hperm.map _
      have hnfs : ((fs.map (fun p => (p.1, render p.2))).map Prod.fst).Nodup := by
        have hcomp : (fs.map (fun p => (p.1, render p.2))).map Prod.fst = fs.map Prod.fst := by
          rw [List.map_map]; rfl
        rw [hcomp]
        have hwf := hw
        simp only [YVal.wf, Bool.and_eq_true] at hwf
        exact keysDistinct_iff.mp hwf.1
      rw [hstep1, insertionSort_perm_congr hstep2 hnfs]

/-! ## Helper lemmas: the reconciler -/

theorem ensureStep_eq (st : List Op × List (NName × ConfigMap)) (cm : ConfigMap) :
    ensureStep st cm =
      match lookupA (cmKey cm) st.2 with
      | some ecm =>
        if cmContentEqual ecm cm then (st.1, removeA (cmKey cm) st.2)
        else (st.1 ++ [Op.delete ecm, Op.create cm], st.2)
      | none => (st.1 ++ [Op.create cm], st.2) := rfl

theorem ensureStep_factor (st : List Op × List (NName × ConfigMap)) (cm : ConfigMap) :
    ensureStep st cm = (st.1 ++ (ensureStep ([], st.2) cm).1, (ensureStep ([], st.2) cm).2) := by
  obtain ⟨ops, acms⟩ := st
  rw [ensureStep_eq, ensureStep_eq]
  rcases lookupA (cmKey cm) acms with _ | ecm
  · simp
  · by_cases h : cmContentEqual ecm cm = true
    · simp [h]
    · simp [h]

theorem ensureStep_none (st : List Op × List (NName × ConfigMap)) (cm : ConfigMap)
    (h : lookupA (cmKey cm) st.2 = none) :
    ensureStep st cm = (st.1 ++ [Op.create cm], st.2) := by
  rw [ensureStep_eq, h]

theorem ensureStep_some_eq (st : List Op × List (NName × ConfigMap)) (cm ecm : ConfigMap)
    (h : lookupA (cmKey cm) st.2 = some ecm) (he : cmContentEqual ecm cm = true) :
    ensureStep st cm = (st.1, removeA (cmKey cm) st.2) := by
  rw [ensureStep_eq, h]
  simp [he]

theorem ensureStep_some_ne (st : List Op × List (NName × ConfigMap)) (cm ecm : ConfigMap)
    (h : lookupA (cmKey cm) st.2 = some ecm) (he : cmContentEqual ecm cm = false) :
    ensureStep st cm = (st.1 ++ [Op.delete ecm, Op.create cm], st.2) := by
  rw [ensureStep_eq, h]
  simp [he]

theorem foldl_ensureStep_factor :
    ∀ (d : List ConfigMap) (ops : List Op) (acms : List (NName × ConfigMap)),
      d.foldl ensureStep (ops, acms) =
        (ops ++ (d.foldl ensureStep ([], acms)).1, (d.foldl ensureStep ([], acms)).2) := by
  intro d
  induction d with
  | nil => intro ops acms; simp
  | cons cm d ih =>
    intro ops acms
    simp only [List.foldl_cons]
    rw [ensureStep_factor (ops, acms) cm]
    rw [ih (ops ++ (ensureStep ([], acms) cm).1) (ensureStep ([], acms) cm).2]
    rw [ih (ensureStep ([], acms) cm).1 (ensureStep ([], acms) cm).2]
    rw [ensureStep_factor ([], acms) cm]
    simp [List.append_assoc]

theorem execOps_nil (s : List ConfigMap) : execOps s [] = some s := rfl

theorem execOps_cons (s : List ConfigMap) (op : Op) (ops : List Op) :
    execOps s (op :: ops) = (applyOp s op).bind (fun t => execOps t ops) := by
  simp [execOps, List.foldlM_cons]

theorem execOps_append (s : List ConfigMap) (p q : List Op) :
    execOps s (p ++ q) = (execOps s p).bind (fun t => execOps t q) := by
  induction p generalizing s with
  | nil => simp [execOps_nil]
  | cons op p ih =>
    rw [List.cons_append, execOps_cons, execOps_cons]
    rcases applyOp s op with _ | t
    · simp
    · exact ih t

/-- A sequence of deletes always executes. -/
theorem exec_deletes_isSome :
    ∀ (m : List (NName × ConfigMap)) (s : List ConfigMap),
      (execOps s (m.map (fun e => Op.delete e.2))).isSome = true := by
  intro m
  induction m with
  | nil => intro s; rfl
  | cons e m ih =>
    intro s
    rw [List.map_cons, execOps_cons]
    exact ih _

theorem lookupA_removeA_ne {κ α : Type} [DecidableEq κ] {k k0 : κ} (h : k ≠ k0) :
    ∀ {m : List (κ × α)}, lookupA k (removeA k0 m) = lookupA k m := by
  intro m
  induction m with
  | nil => rfl
  | cons p tl ih =>
    obtain ⟨k', v'⟩ := p
    show lookupA k (List.filter _ ((k', v') :: tl)) = _
    rw [List.filter_cons]
    by_cases h1 : k' = k0
    · rw [if_neg (by simp [h1])]
      have h2 : ¬ k' = k := by rw [h1]; exact fun he => h he.symm
      conv_rhs => rw [lookupA]
      rw [if_neg h2]
      exact ih
    · rw [if_pos (by simp [h1])]
      simp only [lookupA]
      by_cases h2 : k' = k
      · rw [if_pos h2, if_pos h2]
      · rw [if_neg h2, if_neg h2]
        exact ih

theorem applyOp_create_eq {s : List ConfigMap} {cm : ConfigMap}
    (h : cmKey cm ∉ s.map cmKey) : applyOp s (Op.create cm) = some (s ++ [cm]) := by
  simp only [applyOp]
  have : s.any (fun x => decide (cmKey x = cmKey cm)) = false := by
    rw [List.any_eq_false]
    intro x hx
    simp only [decide_eq_true_eq]
    intro he
    exact h (he ▸ List.mem_map.mpr ⟨x, hx, rfl⟩)
  rw [this]
  simp

theorem filter_keys_mem {s : List ConfigMap} {k0 k : NName} :
    k ∈ (s.filter (fun x => decide (cmKey x ≠ k0))).map cmKey ↔ k ∈ s.map cmKey ∧ k ≠ k0 := by
  constructor
  · intro h
    obtain ⟨x, hx, hxk⟩ := List.mem_map.mp h
    have hmem := List.mem_filter.mp hx
    subst hxk
    exact ⟨List.mem_map.mpr ⟨x, hmem.1, rfl⟩, by simpa using hmem.2⟩
  · intro ⟨h1, h2⟩
    obtain ⟨x, hx, hxk⟩ := List.mem_map.mp h1
    subst hxk
    exact List.mem_map.mpr ⟨x, List.mem_filter.mpr ⟨hx, by simpa using h2⟩, rfl⟩

theorem applyOp_keys_nodup {s t : List ConfigMap} {op : Op}
    (hs : (s.map cmKey).Nodup) (h : applyOp s op = some t) : (t.map cmKey).Nodup := by
  cases op with
  | create cm =>
    simp only [applyOp] at h
    rcases hany : s.any (fun x => decide (cmKey x = cmKey cm)) with _ | _
    · rw [hany] at h
      simp only [Bool.false_eq_true, if_false, Option.some.injEq] at h
      subst h
      rw [List.map_append, List.map_singleton]
      apply List.Nodup.append hs (List.nodup_singleton _)
      intro k hk hk2
      rw [List.mem_singleton] at hk2
      subst hk2
      rw [List.any_eq_false] at hany
      obtain ⟨x, hx, hxk⟩ := List.mem_map.mp hk
      exact absurd (by simpa using hxk) (by simpa using hany x hx)
    · rw [hany] at h
      simp at h
  | delete cm =>
    simp only [applyOp, Option.some.injEq] at h
    subst h
    exact List.Nodup.sublist (List.Sublist.map cmKey (List.filter_sublist s)) hs

theorem execOps_keys_nodup :
    ∀ (p : List Op) (s t : List ConfigMap),
      (s.map cmKey).Nodup → execOps s p = some t → (t.map cmKey).Nodup := by
  intro p
  induction p with
  | nil => intro s t hs h; rw [execOps_nil] at h; exact Option.some.inj h ▸ hs
  | cons op p ih =>
    intro s t hs h
    rw [execOps_cons] at h
    rcases ha : applyOp s op with _ | s1
    · rw [ha] at h; simp at h
    · rw [ha] at h
      exact ih s1 t (applyOp_keys_nodup hs ha) h

theorem insertA_not_mem {κ α : Type} [DecidableEq κ] {k : κ} {v : α} :
    ∀ {m : List (κ × α)}, k ∉ m.map Prod.fst → insertA k v m = m ++ [(k, v)] := by
  intro m
  induction m with
  | nil => intro _; rfl
  | cons p tl ih =>
    intro h
    obtain ⟨k', v'⟩ := p
    simp only [List.map_cons, List.mem_cons, not_or] at h
    have : k' ≠ k := fun he => h.1 he.symm
    simp [insertA, this, ih h.2]

theorem buildActualCms_aux :
    ∀ (l : List ConfigMap) (m : List (NName × ConfigMap)),
      (m.map Prod.fst ++ l.map cmKey).Nodup →
      l.foldl (fun m cm => insertA (cmKey cm) cm m) m = m ++ l.map (fun cm => (cmKey cm, cm)) := by
  intro l
  induction l with
  | nil => intro m _; simp
  | cons cm l ih =>
    intro m hn
    have hkey : cmKey cm ∉ m.map Prod.fst := by
      simp only [List.map_cons] at hn
      intro hmem
      have := List.disjoint_of_nodup_append hn
      exact this hmem (by simp)
    simp only [List.foldl_cons]
    rw [insertA_not_mem hkey]
    rw [ih (m ++ [(cmKey cm, cm)]) (by simpa using hn)]
    simp

theorem buildActualCms_eq_map {actual : List ConfigMap} (hA : (actual.map cmKey).Nodup) :
    buildActualCms actual = actual.map (fun cm => (cmKey cm, cm)) := by
  have := buildActualCms_aux actual [] (by simpa using hA)
  simpa [buildActualCms] using this

theorem lookupA_buildActualCms_isSome {actual : List ConfigMap} (hA : (actual.map cmKey).Nodup)
    {k : NName} (hk : k ∈ actual.map cmKey) :
    (lookupA k (buildActualCms actual)).isSome = true := by
  rw [buildActualCms_eq_map hA]
  apply lookupA_isSome_iff.mpr
  rw [List.map_map]
  exact hk

/-- Every operation the reconciler issues succeeds against the store,
provided actual and desired key sets are duplicate-free and every live key
is either indexed or not upcoming (established at the top level by
`buildActualCms`). -/
theorem exec_ensure_aux :
    ∀ (d : List ConfigMap) (acms : List (NName × ConfigMap)) (s : List ConfigMap),
      (d.map cmKey).Nodup →
      (∀ p ∈ acms, cmKey p.2 = p.1) →
      (∀ k, k ∈ s.map cmKey → (lookupA k acms).isSome = true ∨ k ∉ d.map cmKey) →
      (execOps s ((d.foldl ensureStep ([], acms)).1 ++
        (d.foldl ensureStep ([], acms)).2.map (fun e => Op.delete e.2))).isSome = true := by
  intro d
  induction d with
  | nil =>
    intro acms s _ _ _
    simpa using exec_deletes_isSome acms s
  | cons cm d ih =>
    intro acms s hd hcoh hinv
    have hdtl : (d.map cmKey).Nodup := by
      simp only [List.map_cons, List.nodup_cons] at hd
      exact hd.2
    have hdhead : cmKey cm ∉ d.map cmKey := by
      simp only [List.map_cons, List.nodup_cons] at hd
      exact hd.1
    rcases hl : lookupA (cmKey cm) acms with _ | ecm
    · -- no actual entry at the key: a create is issued
      have hknotin : cmKey cm ∉ s.map cmKey := by
        intro hmem
        rcases hinv (cmKey cm) hmem with h1 | h1
        · rw [hl] at h1; simp at h1
        · exact h1 (by simp)
      rw [List.foldl_cons, ensureStep_none ([], acms) cm hl, foldl_ensureStep_factor]
      simp only [List.nil_append, List.append_assoc, List.cons_append,
        List.singleton_append]
      rw [execOps_cons, applyOp_create_eq hknotin, Option.some_bind]
      apply ih acms (s ++ [cm]) hdtl hcoh
      intro k hk
      rw [List.map_append, List.mem_append] at hk
      rcases hk with hk | hk
      · rcases hinv k hk with h1 | h1
        · exact Or.inl h1
        · right
          intro hmem
          exact h1 (by simp [hmem])
      · right
        simp only [List.map_singleton, List.mem_singleton] at hk
        subst hk
        exact hdhead
    · by_cases he : cmContentEqual ecm cm = true
      · -- deep-equal: no operation, key accounted for
        rw [List.foldl_cons, ensureStep_some_eq ([], acms) cm ecm hl he]
        apply ih (removeA (cmKey cm) acms) s hdtl
          (fun p hp => hcoh p (List.mem_of_mem_filter hp))
        intro k hk
        rcases hinv k hk with h1 | h1
        · by_cases hkk : k = cmKey cm
          · right
            subst hkk
            exact hdhead
          · left
            rw [lookupA_removeA_ne hkk]
            exact h1
        · right
          intro hmem
          exact h1 (by simp [hmem])
      · -- differing content: delete then create are issued
        rw [List.foldl_cons,
          ensureStep_some_ne ([], acms) cm ecm hl (by simpa using he),
          foldl_ensureStep_factor]
        simp only [List.nil_append, List.append_assoc, List.cons_append,
          List.singleton_append]
        rw [execOps_cons]
        have hdel : applyOp s (Op.delete ecm) =
            some (s.filter (fun x => decide (cmKey x ≠ cmKey ecm))) := rfl
        rw [hdel]
        have hkey : cmKey ecm = cmKey cm :=
          hcoh (cmKey cm, ecm) (lookupA_eq_some_mem hl)
        have hknotin : cmKey cm ∉
            (s.filter (fun x => decide (cmKey x ≠ cmKey ecm))).map cmKey := by
          intro hmem
          rcases filter_keys_mem.mp hmem with ⟨_, hne2⟩
          exact hne2 hkey.symm
        rw [Option.some_bind, execOps_cons, applyOp_create_eq hknotin, Option.some_bind]
        apply ih acms _ hdtl hcoh
        intro k hk
        rw [List.map_append, List.mem_append] at hk
        rcases hk with hk | hk
        · rcases filter_keys_mem.mp hk with ⟨hk1, _⟩
          rcases hinv k hk1 with h1 | h1
          · exact Or.inl h1
          · right
            intro hmem
            exact h1 (by simp [hmem])
        · left
          simp only [List.map_singleton, List.mem_singleton] at hk
          subst hk
          rw [hl]
          rfl

/-- For a desired ConfigMap whose key is held by a differing actual entry,
the issued operation sequence contains the delete of the actual entry
immediately followed by the create of the desired one. -/
theorem ensure_ordering_aux :
    ∀ (d : List ConfigMap) (acms : List (NName × ConfigMap)) (dcm ecm : ConfigMap),
      (d.map cmKey).Nodup → dcm ∈ d →
      lookupA (cmKey dcm) acms = some ecm →
      cmContentEqual ecm dcm = false →
      ∃ i,
        ((d.foldl ensureStep ([], acms)).1 ++
          (d.foldl ensureStep ([], acms)).2.map (fun e => Op.delete e.2))[i]? =
            some (Op.delete ecm) ∧
        ((d.foldl ensureStep ([], acms)).1 ++
          (d.foldl ensureStep ([], acms)).2.map (fun e => Op.delete e.2))[i + 1]? =
            some (Op.create dcm) := by
  intro d
  induction d with
  | nil =>
    intro acms dcm ecm _ hmem _ _
    simp at hmem
  | cons cm d ih =>
    intro acms dcm ecm hd hmem hl hne
    have hdtl : (d.map cmKey).Nodup := by
      simp only [List.map_cons, List.nodup_cons] at hd
      exact hd.2
    have hdhead : cmKey cm ∉ d.map cmKey := by
      simp only [List.map_cons, List.nodup_cons] at hd
      exact hd.1
    rcases List.mem_cons.mp hmem with heq | hmem'
    · -- the head itself is the differing desired entry
      subst heq
      rw [List.foldl_cons, ensureStep_some_ne ([], acms) dcm ecm hl hne,
        foldl_ensureStep_factor]
      refine ⟨0, ?_, ?_⟩ <;> simp
    · have hkeyne : cmKey dcm ≠ cmKey cm := by
        intro he
        exact hdhead (he ▸ List.mem_map.mpr ⟨dcm, hmem', rfl⟩)
      rcases hl0 : lookupA (cmKey cm) acms with _ | e0
      · rw [List.foldl_cons, ensureStep_none ([], acms) cm hl0, foldl_ensureStep_factor]
        obtain ⟨i, h1, h2⟩ := ih acms dcm ecm hdtl hmem' hl hne
        refine ⟨i + 1, ?_, ?_⟩
        · simpa using h1
        · simpa using h2
      · by_cases he0 : cmContentEqual e0 cm = true
        · rw [List.foldl_cons, ensureStep_some_eq ([], acms) cm e0 hl0 he0]
          have hl' : lookupA (cmKey dcm) (removeA (cmKey cm) acms) = some ecm := by
            rw [lookupA_removeA_ne hkeyne]
            exact hl
          exact ih (removeA (cmKey cm) acms) dcm ecm hdtl hmem' hl' hne
        · rw [List.foldl_cons,
            ensureStep_some_ne ([], acms) cm e0 hl0 (by simpa using he0),
            foldl_ensureStep_factor]
          obtain ⟨i, h1, h2⟩ := ih acms dcm ecm hdtl hmem' hl hne
          refine ⟨i + 2, ?_, ?_⟩
          · simpa using h1
          · simpa using h2

/-- When every desired entry is deep-equal to the indexed actual entry at
its key, the per-desired loop issues nothing and merely removes the
processed keys from the working index. -/
theorem ensure_equal_aux :
    ∀ (d : List ConfigMap) (acms : List (NName × ConfigMap)),
      (d.map cmKey).Nodup →
      (∀ cm ∈ d, (match lookupA (cmKey cm) acms with
                  | some e => cmContentEqual e cm
                  | none => false) = true) →
      (d.foldl ensureStep ([], acms)).1 = [] ∧
      (d.foldl ensureStep ([], acms)).2 =
        acms.filter (fun p => decide (p.1 ∉ d.map cmKey)) := by
  intro d
  induction d with
  | nil =>
    intro acms _ _
    constructor
    · rfl
    · simp
  | cons cm d ih =>
    intro acms hd hall
    have hdtl : (d.map cmKey).Nodup := by
      simp only [List.map_cons, List.nodup_cons] at hd
      exact hd.2
    have hdhead : cmKey cm ∉ d.map cmKey := by
      simp only [List.map_cons, List.nodup_cons] at hd
      exact hd.1
    have hcm := hall cm (by simp)
    rcases hl : lookupA (cmKey cm) acms with _ | e
    · rw [hl] at hcm; simp at hcm
    · rw [hl] at hcm
      rw [List.foldl_cons, ensureStep_some_eq ([], acms) cm e hl hcm]
      have hall' : ∀ cm' ∈ d, (match lookupA (cmKey cm') (removeA (cmKey cm) acms) with
          | some e => cmContentEqual e cm'
          | none => false) = true := by
        intro cm' hmem
        have hne : cmKey cm' ≠ cmKey cm := by
          intro he
          exact hdhead (he ▸ List.mem_map.mpr ⟨cm', hmem, rfl⟩)
        rw [lookupA_removeA_ne hne]
        exact hall cm' (by simp [hmem])
      obtain ⟨ih1, ih2⟩ := ih (removeA (cmKey cm) acms) hdtl hall'
      refine ⟨ih1, ?_⟩
      rw [ih2]
      show (acms.filter _).filter _ = _
      rw [List.filter_filter]
      apply List.filter_congr
      intro p _
      by_cases h1 : p.1 ∈ d.map cmKey <;> by_cases h2 : p.1 = cmKey cm <;>
        simp [h1, h2]

/-! ## Helper lemmas: error plumbing of the reconciler's remote calls -/

/-- A run whose creates all succeed and whose deletes at worst report
not-found completes successfully. -/
theorem runOps_ok_of_benign :
    ∀ (ops : List Op) (outcome : Nat → OpOutcome),
      (∀ i, i < ops.length →
        (∀ cm, ops[i]? = some (Op.create cm) → outcome i = OpOutcome.ok) ∧
        (∀ cm, ops[i]? = some (Op.delete cm) →
          outcome i = OpOutcome.ok ∨ outcome i = OpOutcome.notFound)) →
      runOps outcome ops = Except.ok () := by
  intro ops
  induction ops with
  | nil => intro outcome _; rfl
  | cons op rest ih =>
    intro outcome h
    have hshift : ∀ i, i < rest.length →
        (∀ cm, rest[i]? = some (Op.create cm) →
          (fun n => outcome (n + 1)) i = OpOutcome.ok) ∧
        (∀ cm, rest[i]? = some (Op.delete cm) →
          (fun n => outcome (n + 1)) i = OpOutcome.ok ∨
          (fun n => outcome (n + 1)) i = OpOutcome.notFound) := by
      intro i hi
      obtain ⟨h1, h2⟩ := h (i + 1) (by simpa using hi)
      exact ⟨fun cm hcm => h1 cm (by simpa using hcm),
             fun cm hcm => h2 cm (by simpa using hcm)⟩
    cases op with
    | delete cm =>
      rcases (h 0 (by simp)).2 cm (by simp) with h0 | h0 <;>
        · simp only [runOps, h0]
          exact ih _ hshift
    | create cm =>
      have h0 := (h 0 (by simp)).1 cm (by simp)
      simp only [runOps, h0]
      exact ih _ hshift

/-- A hard remote error on a delete, after a benign prefix, aborts the run
with the wrapped delete error. -/
theorem runOps_delete_fails :
    ∀ (ops : List Op) (outcome : Nat → OpOutcome) (j : Nat) (m : String) (cm : ConfigMap),
      ops[j]? = some (Op.delete cm) → outcome j = OpOutcome.fail m →
      (∀ i, i < j →
        (∀ cm', ops[i]? = some (Op.create cm') → outcome i = OpOutcome.ok) ∧
        (∀ cm', ops[i]? = some (Op.delete cm') →
          outcome i = OpOutcome.ok ∨ outcome i = OpOutcome.notFound)) →
      runOps outcome ops = Except.error ("delete configmap: " ++ m) := by
  intro ops
  induction ops with
  | nil => intro outcome j m cm hj _ _; simp at hj
  | cons op rest ih =>
    intro outcome j m cm hj hfail hpre
    cases j with
    | zero =>
      have hop : op = Op.delete cm := by simpa using hj
      subst hop
      simp [runOps, hfail]
    | succ j =>
      have hshift : ∀ i, i < j →
          (∀ cm', rest[i]? = some (Op.create cm') →
            (fun n => outcome (n + 1)) i = OpOutcome.ok) ∧
          (∀ cm', rest[i]? = some (Op.delete cm') →
            (fun n => outcome (n + 1)) i = OpOutcome.ok ∨
            (fun n => outcome (n + 1)) i = OpOutcome.notFound) := by
        intro i hi
        obtain ⟨h1, h2⟩ := hpre (i + 1) (by omega)
        exact ⟨fun cm' hcm => h1 cm' (by simpa using hcm),
               fun cm' hcm => h2 cm' (by simpa using hcm)⟩
      cases op with
      | delete cm0 =>
        rcases (hpre 0 (Nat.succ_pos _)).2 cm0 (by simp) with h0 | h0 <;>
          · simp only [runOps, h0]
            exact ih _ j m cm (by simpa using hj) hfail hshift
      | create cm0 =>
        have h0 := (hpre 0 (Nat.succ_pos _)).1 cm0 (by simp)
        simp only [runOps, h0]
        exact ih _ j m cm (by simpa using hj) hfail hshift

/-! ## Helper lemmas: the manifest loader -/

theorem decodeDocs_ok :
    ∀ (docs : List (Except String YVal)), (∀ d ∈ docs, d.isOk = true) →
      decodeDocs docs = Except.ok (docs.filterMap Except.toOption) := by
  intro docs
  induction docs with
  | nil => intro _; rfl
  | cons d tl ih =>
    intro h
    cases d with
    | error m =>
      have hh := h (Except.error m) (by simp)
      simp [Except.isOk, Except.toBool] at hh
    | ok v =>
      simp only [decodeDocs, ih (fun d hd => h d (by simp [hd]))]
      rfl

theorem decodeDocs_first_error :
    ∀ (dpre : List (Except String YVal)) (m : String) (dpost : List (Except String YVal)),
      (∀ d ∈ dpre, d.isOk = true) →
      decodeDocs (dpre ++ Except.error m :: dpost) = Except.error m := by
  intro dpre
  induction dpre with
  | nil => intro m dpost _; rfl
  | cons d tl ih =>
    intro m dpost h
    cases d with
    | error m0 =>
      have hh := h (Except.error m0) (by simp)
      simp [Except.isOk, Except.toBool] at hh
    | ok v =>
      show (decodeDocs (tl ++ Except.error m :: dpost)).map _ = _
      rw [ih m dpost (fun d hd => h d (by simp [hd]))]
      rfl

theorem getObjects_ok :
    ∀ (entries : List FsEntry),
      (∀ e ∈ entries, e.isDir = true ∨
        (e.readErr = none ∧ ∀ d ∈ e.docs, d.isOk = true)) →
      getObjects entries =
        Except.ok ((entries.filter (fun e => !e.isDir)).flatMap
          (fun e => e.docs.filterMap Except.toOption)) := by
  intro entries
  induction entries with
  | nil => intro _; rfl
  | cons e tl ih =>
    intro h
    have ihh := ih (fun p hp => h p (by simp [hp]))
    rcases h e (by simp) with hdir | ⟨hread, hdocs⟩
    · simp [getObjects, hdir, ihh]
    · rcases hdir : e.isDir with _ | _
      · simp [getObjects, Except.map, hdir, hread, decodeDocs_ok e.docs hdocs, ihh]
      · simp [getObjects, hdir, ihh]

theorem getObjects_first_error :
    ∀ (pre : List FsEntry) (e : FsEntry) (post : List FsEntry)
      (dpre : List (Except String YVal)) (m : String) (dpost : List (Except String YVal)),
      (∀ p ∈ pre, p.isDir = true ∨ (p.readErr = none ∧ ∀ d ∈ p.docs, d.isOk = true)) →
      e.isDir = false → e.readErr = none →
      e.docs = dpre ++ Except.error m :: dpost →
      (∀ d ∈ dpre, d.isOk = true) →
      getObjects (pre ++ e :: post) = Except.error m := by
  intro pre
  induction pre with
  | nil =>
    intro e post dpre m dpost _ hdir hread hdocs hpre
    simp [getObjects, hdir, hread, hdocs, decodeDocs_first_error dpre m dpost hpre]
  | cons p tl ih =>
    intro e post dpre m dpost hclean hdir hread hdocs hpre
    have ihx := ih e post dpre m dpost (fun q hq => hclean q (by simp [hq])) hdir hread hdocs hpre
    rcases hclean p (by simp) with hp | ⟨hp1, hp2⟩
    · simp [getObjects, hp, ihx]
    · rcases hpd : p.isDir with _ | _
      · simp [getObjects, Except.map, hpd, hp1, decodeDocs_ok p.docs hp2, ihx]
      · simp [getObjects, hpd, ihx]

theorem assocEqual_symm {α : Type} [BEq α] [LawfulBEq α] (a b : List (String × α))
    (ha : (a.map Prod.fst).Nodup) (hb : (b.map Prod.fst).Nodup) :
    assocEqual a b = assocEqual b a := by
  rcases h1 : assocEqual a b with _ | _ <;> rcases h2 : assocEqual b a with _ | _
  · rfl
  · have hx := (@assocEqual_iff α _ _ b a hb ha).mp h2
    have hy := (@assocEqual_iff α _ _ a b ha hb).mpr (fun k => (hx k).symm)
    rw [h1] at hy
    exact hy
  · have hx := (@assocEqual_iff α _ _ a b ha hb).mp h1
    have hy := (@assocEqual_iff α _ _ b a hb ha).mpr (fun k => (hx k).symm)
    rw [h2] at hy
    exact hy.symm
  · rfl

/-! ## The claims -/

/-- C1: the convergence claim fails on the code.  In the replace path
(unpack.go 255–261) the key is never removed from the working index, so
the garbage-collection sweep (line 263) deletes, by `(namespace, name)`,
the ConfigMap just created for that key.  Concretely: with one stored
chunk and one desired chunk at the same key with differing content, the
run completes without error (`some`) but the resulting store is empty, not
equal to the desired set. -/
theorem c1_convergence_violated :
    cmKey cmOldC = cmKey cmNewC ∧
    cmContentEqual cmOldC cmNewC = false ∧
    execOps [cmOldC] (ensureDesiredConfigMapsOps [cmOldC] [cmNewC]) = some [] ∧
    ([] : List ConfigMap) ≠ [cmNewC] := by decide

/-- C2: safe replace ordering.  For every key held by both sets with
differing content, the issued sequence contains the delete of the old
chunk immediately before the create of the new one; every prefix of the
run keeps at most one chunk per key in the store; and the whole sequence
executes without error against the store. -/
theorem c2_safe_replace_ordering (actual desired : List ConfigMap)
    (hA : (actual.map cmKey).Nodup) (hD : (desired.map cmKey).Nodup) :
    (∀ dcm ecm, dcm ∈ desired →
      lookupA (cmKey dcm) (buildActualCms actual) = some ecm →
      cmContentEqual ecm dcm = false →
      ∃ i, (ensureDesiredConfigMapsOps actual desired)[i]? = some (Op.delete ecm) ∧
           (ensureDesiredConfigMapsOps actual desired)[i + 1]? = some (Op.create dcm)) ∧
    (∀ p q t, ensureDesiredConfigMapsOps actual desired = p ++ q →
      execOps actual p = some t → (t.map cmKey).Nodup) ∧
    (execOps actual (ensureDesiredConfigMapsOps actual desired)).isSome = true := by
  refine ⟨?_, ?_, ?_⟩
  · intro dcm ecm hmem hl hne
    have h := ensure_ordering_aux desired (buildActualCms actual) dcm ecm hD hmem hl hne
    simpa [ensureDesiredConfigMapsOps] using h
  · intro p q t _ hexec
    exact execOps_keys_nodup p actual t hA hexec
  · have hcoh : ∀ p ∈ buildActualCms actual, cmKey p.2 = p.1 := by
      intro p hp
      rw [buildActualCms_eq_map hA] at hp
      obtain ⟨cm, _, hcm⟩ := List.mem_map.mp hp
      rw [← hcm]
    have hinv : ∀ k, k ∈ actual.map cmKey →
        (lookupA k (buildActualCms actual)).isSome = true ∨ k ∉ desired.map cmKey :=
      fun k hk => Or.inl (lookupA_buildActualCms_isSome hA hk)
    have h := exec_ensure_aux desired (buildActualCms actual) actual hD hcoh hinv
    simpa [ensureDesiredConfigMapsOps] using h

/-- Witness for C2 at the concrete replace scenario. -/
theorem c2_witness :
    (execOps [cmOldC] (ensureDesiredConfigMapsOps [cmOldC] [cmNewC])).isSome = true :=
  (c2_safe_replace_ordering [cmOldC] [cmNewC] (by decide) (by decide)).2.2

/-- C3: the single-delete claim fails on the code.  A key present in both
sets with differing content is deleted twice in one run: once in the
replace path and once more in the sweep (because the replace path does not
remove the key from the working index). -/
theorem c3_double_delete :
    cmKey cmOldC = cmKey cmNewC ∧
    cmContentEqual cmOldC cmNewC = false ∧
    deleteCountAt (cmKey cmOldC) (ensureDesiredConfigMapsOps [cmOldC] [cmNewC]) = 2 := by
  decide

/-- C4: idempotence.  When the actual set agrees with the desired set —
same duplicate-free key sets, and at every key the indexed actual entry is
deep-equal to the desired entry — the reconciler issues no operation. -/
theorem c4_idempotence (actual desired : List ConfigMap)
    (hA : (actual.map cmKey).Nodup) (hD : (desired.map cmKey).Nodup)
    (h1 : ∀ dcm ∈ desired,
      (match lookupA (cmKey dcm) (buildActualCms actual) with
       | some e => cmContentEqual e dcm
       | none => false) = true)
    (h2 : ∀ acm ∈ actual, cmKey acm ∈ desired.map cmKey) :
    ensureDesiredConfigMapsOps actual desired = [] := by
  obtain ⟨e1, e2⟩ := ensure_equal_aux desired (buildActualCms actual) hD h1
  have hfilter : (buildActualCms actual).filter
      (fun p => decide (p.1 ∉ desired.map cmKey)) = [] := by
    rw [List.filter_eq_nil_iff]
    intro p hp
    rw [buildActualCms_eq_map hA] at hp
    obtain ⟨cm, hcm, hpc⟩ := List.mem_map.mp hp
    subst hpc
    simp [h2 cm hcm]
  have hdef : ensureDesiredConfigMapsOps actual desired =
      (desired.foldl ensureStep ([], buildActualCms actual)).1 ++
      (desired.foldl ensureStep ([], buildActualCms actual)).2.map
        (fun e => Op.delete e.2) := rfl
  rw [hdef, e1, e2, hfilter]
  rfl

/-- Witness for C4: reconciling a converged singleton performs nothing. -/
theorem c4_witness : ensureDesiredConfigMapsOps [cmOldC] [cmOldC] = [] :=
  c4_idempotence [cmOldC] [cmOldC] (by decide) (by decide) (by decide) (by decide)

/-- C5 counterexample: the builder does not fail on an 8-hex-character
hash-prefix collision.  `o1` and `o2` are distinct objects whose canonical
encodings hash to `0523e000…`; `getDesiredConfigMaps` returns `ok` with
both chunks under the same `(namespace, name)` key instead of an error. -/
theorem c5_counterexample :
    o1 ≠ o2 ∧
    (u0.getDesiredConfigMaps gzId "img" [o1, o2]).toOption.map (fun l => l.map cmKey) =
      some [(("ns", "bundle-object-b-0523e000") : NName), ("ns", "bundle-object-b-0523e000")] := by
  constructor
  · intro h
    exact absurd (congrArg render h) (by decide)
  · decide

/-- C5 (amended): the desired-state builder performs no collision check:
for any two distinct objects whose content hashes agree on the first 8 hex
characters it succeeds and returns the two chunks under one shared key
(the failure surfaces only later, when the reconciler's create hits the
duplicate key). -/
theorem c5_no_collision_check (u : Unpacker) (gz : List Nat → List Nat) (img : String)
    (a b : YVal) (_hne : a ≠ b)
    (hcol : (sha256Hex (canonBytes a)).data.take 8 = (sha256Hex (canonBytes b)).data.take 8) :
    ∃ c1 c2, u.getDesiredConfigMaps gz img [a, b] = Except.ok [c1, c2] ∧
      cmKey c1 = cmKey c2 := by
  refine ⟨_, _, rfl, ?_⟩
  have hname : take8 (sha256Hex (canonBytes a)) = take8 (sha256Hex (canonBytes b)) := by
    rw [take8, take8, hcol]
  simp [cmKey, Unpacker.desiredConfigMapFor, hname]

/-- Witness for the amended C5 at the concrete collision. -/
theorem c5_witness :
    ∃ c1 c2, u0.getDesiredConfigMaps gzId "img" [o1, o2] = Except.ok [c1, c2] ∧
      cmKey c1 = cmKey c2 :=
  c5_no_collision_check u0 gzId "img" o1 o2
    (fun h => absurd (congrArg render h) (by decide)) (by decide)

/-- C6: shape of the desired chunks.  The builder succeeds with exactly
one ConfigMap per object, in input order; each carries the
content-addressed name, the unpack namespace, the bundle-identity label,
the six textual data fields, the gzip payload of the canonical bytes, and
the immutable flag. -/
theorem c6_desired_chunk_shape (u : Unpacker) (gz : List Nat → List Nat) (img : String)
    (objects : List YVal) (cms : List ConfigMap)
    (hok : u.getDesiredConfigMaps gz img objects = Except.ok cms) :
    cms.length = objects.length ∧
    ∀ (i : Nat) (obj : YVal) (cm : ConfigMap), objects[i]? = some obj → cms[i]? = some cm →
      cm.name = "bundle-object-" ++ u.bundleName ++ "-" ++ take8 (sha256Hex (canonBytes obj)) ∧
      cm.ns = u.ns ∧
      cm.labels = [("kuberpak.io/bundle-name", u.bundleName)] ∧
      cm.data.map Prod.fst = ["bundle-image", "object-sha256", "object-kind",
        "object-apiversion", "object-name", "object-namespace"] ∧
      lookupA "bundle-image" cm.data = some img ∧
      lookupA "object-sha256" cm.data = some (sha256Hex (canonBytes obj)) ∧
      lookupA "object-name" cm.data = some (objName obj) ∧
      lookupA "object-namespace" cm.data = some (objNamespace obj) ∧
      cm.binaryData = [("object", gz (canonBytes obj))] ∧
      cm.immutable = true := by
  have hcms : cms = objects.map (u.desiredConfigMapFor gz img) := by
    have h := hok
    simp only [Unpacker.getDesiredConfigMaps, Except.ok.injEq] at h
    exact h.symm
  subst hcms
  refine ⟨by simp, ?_⟩
  intro i obj cm hobj hcm
  rw [List.getElem?_map, hobj] at hcm
  simp only [Option.map_some', Option.some.injEq] at hcm
  subst hcm
  exact ⟨rfl, rfl, rfl, rfl, rfl, rfl, rfl, rfl, rfl, rfl⟩

/-- Witness for C6 on a concrete object. -/
theorem c6_witness :
    (List.map (u0.desiredConfigMapFor gzId "img") [oW]).length = 1 := by
  have h := (c6_desired_chunk_shape u0 gzId "img" [oW]
    (List.map (u0.desiredConfigMapFor gzId "img") [oW]) rfl).1
  exact h

/-- C7 counterexample: the loader's decode error does not include the name
of the source entry.  The first malformed document of `bad.yaml` aborts
the run, but the error returned is the decoder's message verbatim
(unpack.go:180 `return nil, err` — no wrapping), which does not contain
the entry name. -/
theorem c7_counterexample :
    badEntry.name = "bad.yaml" ∧
    errOf (getObjects [badEntry]) = some "could not decode" ∧
    listHasSeg "bad.yaml".data "could not decode".data = false := by decide

/-- C7 (amended): the loader fails fast on the first malformed document,
returning the decoder's error unchanged (without the source entry name)
and no object sequence; on success it returns all documents of all
non-directory entries, preserving per-file document order. -/
theorem c7_loader_fail_fast (entries : List FsEntry) :
    ((∀ e ∈ entries, e.isDir = true ∨ (e.readErr = none ∧ ∀ d ∈ e.docs, d.isOk = true)) →
      getObjects entries = Except.ok ((entries.filter (fun e => !e.isDir)).flatMap
        (fun e => e.docs.filterMap Except.toOption))) ∧
    (∀ pre e post dpre m dpost,
      entries = pre ++ e :: post →
      (∀ p ∈ pre, p.isDir = true ∨ (p.readErr = none ∧ ∀ d ∈ p.docs, d.isOk = true)) →
      e.isDir = false → e.readErr = none →
      e.docs = dpre ++ Except.error m :: dpost →
      (∀ d ∈ dpre, d.isOk = true) →
      getObjects entries = Except.error m) := by
  constructor
  · exact getObjects_ok entries
  · intro pre e post dpre m dpost hsplit hclean hdir hread hdocs hpre
    rw [hsplit]
    exact getObjects_first_error pre e post dpre m dpost hclean hdir hread hdocs hpre

/-- Witness for the amended C7: a successful load and a fail-fast load. -/
theorem c7_witness :
    getObjects [eDir, eGood] = Except.ok (([eDir, eGood].filter (fun e => !e.isDir)).flatMap
      (fun e => e.docs.filterMap Except.toOption)) ∧
    getObjects [eGood, eBad] = Except.error "boom" :=
  ⟨(c7_loader_fail_fast [eDir, eGood]).1 (by decide),
   (c7_loader_fail_fast [eGood, eBad]).2 [eGood] eBad [] [Except.ok (.str "v3")] "boom" []
     rfl (by decide) rfl rfl rfl (by decide)⟩

/-- C8: not-found on delete is success.  Replaying the reconciler's
operation sequence against injected remote outcomes: if every create
succeeds and every delete at worst reports not-found, the run completes
without error; a hard remote error on a delete, after a benign prefix,
aborts the run with the wrapped delete error. -/
theorem c8_not_found_on_delete (actual desired : List ConfigMap) (outcome : Nat → OpOutcome) :
    ((∀ i, i < (ensureDesiredConfigMapsOps actual desired).length →
      (∀ cm, (ensureDesiredConfigMapsOps actual desired)[i]? = some (Op.create cm) →
        outcome i = OpOutcome.ok) ∧
      (∀ cm, (ensureDesiredConfigMapsOps actual desired)[i]? = some (Op.delete cm) →
        outcome i = OpOutcome.ok ∨ outcome i = OpOutcome.notFound)) →
      runOps outcome (ensureDesiredConfigMapsOps actual desired) = Except.ok ()) ∧
    (∀ j m cm, (ensureDesiredConfigMapsOps actual desired)[j]? = some (Op.delete cm) →
      outcome j = OpOutcome.fail m →
      (∀ i, i < j →
        (∀ cm', (ensureDesiredConfigMapsOps actual desired)[i]? = some (Op.create cm') →
          outcome i = OpOutcome.ok) ∧
        (∀ cm', (ensureDesiredConfigMapsOps actual desired)[i]? = some (Op.delete cm') →
          outcome i = OpOutcome.ok ∨ outcome i = OpOutcome.notFound)) →
      runOps outcome (ensureDesiredConfigMapsOps actual desired) =
        Except.error ("delete configmap: " ++ m)) := by
  constructor
  · exact runOps_ok_of_benign _ outcome
  · intro j m cm hj hf hpre
    exact runOps_delete_fails _ outcome j m cm hj hf hpre

/-- Witness for C8: the garbage-collection delete of a stale chunk
tolerates not-found, and aborts on a hard remote error. -/
theorem c8_witness :
    runOps outcomeNF (ensureDesiredConfigMapsOps [cmOldC] []) = Except.ok () ∧
    runOps outcomeF (ensureDesiredConfigMapsOps [cmOldC] []) =
      Except.error ("delete configmap: " ++ "boom") :=
  ⟨(c8_not_found_on_delete [cmOldC] [] outcomeNF).1
    (by
      intro i hi
      refine ⟨fun cm hcm => ?_, fun cm _ => Or.inr rfl⟩
      have hlen : (ensureDesiredConfigMapsOps [cmOldC] []).length = 1 := by decide
      rw [hlen] at hi
      have hi0 : i = 0 := by omega
      subst hi0
      have he : (ensureDesiredConfigMapsOps [cmOldC] [])[0]? = some (Op.delete cmOldC) := by
        decide
      rw [he] at hcm
      exact absurd (Option.some.inj hcm) (by simp)),
   (c8_not_found_on_delete [cmOldC] [] outcomeF).2 0 "boom" cmOldC (by decide) (by decide)
     (fun i hi => absurd hi (Nat.not_lt_zero i))⟩

/-- C9: encoder determinism.  Two representations of the same logical
object — equal up to map/field iteration order at every level, with the
Go-map invariant of duplicate-free keys — receive identical canonical
bytes and an identical content hash. -/
theorem c9_encoder_determinism (v w : YVal)
    (hv : YVal.wf v = true) (hw : YVal.wf w = true) (h : YEquiv v w) :
    render v = render w ∧ canonBytes v = canonBytes w ∧
    sha256Hex (canonBytes v) = sha256Hex (canonBytes w) := by
  have hr : render v = render w := render_congr_aux (sizeOf v) v w (Nat.le_refl _) hv hw h
  refine ⟨hr, ?_, ?_⟩
  · rw [canonBytes, canonBytes, hr]
  · rw [canonBytes, canonBytes, hr]

/-- Witness for C9 on two orderings of a two-field mapping. -/
theorem c9_witness :
    render c9v = render c9w ∧ canonBytes c9v = canonBytes c9w ∧
    sha256Hex (canonBytes c9v) = sha256Hex (canonBytes c9w) :=
  c9_encoder_determinism c9v c9w (by decide) (by decide)
    (@YEquiv.map [("b", .str "1"), ("a", .str "2")] [("b", .str "1"), ("a", .str "2")]
      [("a", .str "2"), ("b", .str "1")] rfl
      (List.Forall₂.cons (YEquiv.str "1") (List.Forall₂.cons (YEquiv.str "2") List.Forall₂.nil))
      (List.Perm.swap ("a", YVal.str "2") ("b", YVal.str "1") []))

/-- C10: the map deep-equality helpers decide extensional equality.  On
duplicate-free association lists (the Go-map invariant), `stringMapsEqual`
and `bytesMapsEqual` return true exactly when the two maps agree at every
key, and both are symmetric.  (Go's `nil` and empty maps coincide in this
model, both being the empty list, matching the length-based comparison in
the source.) -/
theorem c10_maps_equal_spec (a b : List (String × String)) (p q : List (String × List Nat))
    (ha : (a.map Prod.fst).Nodup) (hb : (b.map Prod.fst).Nodup)
    (hp : (p.map Prod.fst).Nodup) (hq : (q.map Prod.fst).Nodup) :
    (stringMapsEqual a b = true ↔ ∀ k, lookupA k a = lookupA k b) ∧
    (bytesMapsEqual p q = true ↔ ∀ k, lookupA k p = lookupA k q) ∧
    stringMapsEqual a b = stringMapsEqual b a ∧
    bytesMapsEqual p q = bytesMapsEqual q p :=
  ⟨@assocEqual_iff String _ _ a b ha hb,
   @assocEqual_iff (List Nat) _ _ p q hp hq,
   assocEqual_symm a b ha hb,
   assocEqual_symm p q hp hq⟩

/-- Witness for C10 on concrete permuted maps. -/
theorem c10_witness :
    stringMapsEqual [("x", "1"), ("y", "2")] [("y", "2"), ("x", "1")] =
      stringMapsEqual [("y", "2"), ("x", "1")] [("x", "1"), ("y", "2")] :=
  (c10_maps_equal_spec [("x", "1"), ("y", "2")] [("y", "2"), ("x", "1")]
    [("z", [1])] [] (by decide) (by decide) (by decide) (by decide)).2.2.1

end Kuberpak
